import Mathlib

/-!
Shallow embedding of the `tlosrecovery` EOSIO contract
(src/src/tlosrecovery.cpp) and verification of its specification.

Modelling choices, faithful to the source:

* An EOSIO `name` is a 64-bit value compared by its numeric `value`; we model
  account identifiers as `Nat` (only comparisons and equality are used).
* A `multi_index` table keyed by `account_name.value` is a strictly
  ascending duplicate-free list of identifiers: `begin()` is the least key,
  iteration is ascending key order, and `emplace` of an existing key aborts
  the transaction with a duplicate-key error.  The two tables `"unstake"`
  and `"recover"` are the fields `unstaking` and `recovering` of `State`.
* External chain state read by the contract (the `eosio` del-bandwidth
  table, the `eosio` refunds table, the `eosio.token` balance) is a fixed
  environment `Env` during one invocation; `self` is the contract's own
  account (`get_self()`), the custodial identity.
* Inline actions sent by the contract are collected into a `List Action`.
* An EOSIO transaction is atomic: a failing `check` or a duplicate-key
  `emplace` aborts the whole invocation with no state change, which the
  embedding renders as `Except Err` — an `.error` result commits nothing.
* `require_auth` checks are enforced by the host ledger against the caller
  and do not touch the queues; they are elided here.
-/

namespace tlosrecovery

/-- One row of the `eosio` del-bandwidth table: the delegated net and cpu
weights (asset amounts, modelled as integers). -/
structure DelBandwidth where
  net : Int
  cpu : Int
  deriving Repr, DecidableEq

/-- External chain state observed and acted on by the contract during one
invocation: stake-delegation rows, pending-refund rows, token balances, and
the contract's own identity (`get_self()`). -/
structure Env where
  stake : Nat → Option DelBandwidth
  refunds : Nat → Bool
  balance : Nat → Int
  self : Nat

/-- Inline actions the contract sends: `eosio::undelegatebw(from, receiver,
net, cpu)`, `eosio::refund(owner)`, `eosio.token::transfer(from, to,
quantity)` (the constant memo string is omitted). -/
inductive Action where
  | undelegate (from_ receiver : Nat) (net cpu : Int)
  | refund (owner : Nat)
  | transfer (from_ to_ : Nat) (quantity : Int)
  deriving Repr, DecidableEq

/-- Transaction aborts: a `multi_index` duplicate-key abort from `emplace`,
or a failed `check(cond, msg)`. -/
inductive Err where
  | duplicateKey
  | checkFailed (msg : String)
  deriving Repr, DecidableEq

/-- The contract's persistent state: the `"unstake"` table and the
`"recover"` table, each a key-ordered set of account identifiers. -/
structure State where
  unstaking : List Nat
  recovering : List Nat
  deriving Repr, DecidableEq

/-- Insert a key into a key-ordered table, keeping ascending order (the
position a `multi_index` `emplace` gives a fresh key). -/
def insertSorted (a : Nat) : List Nat → List Nat
  | [] => [a]
  | b :: l => if a < b then a :: b :: l else b :: insertSorted a l

/-- `multi_index::emplace`: aborts with a duplicate-key error if the key is
already present, otherwise inserts in key order. -/
def emplace (a : Nat) (l : List Nat) : Except Err (List Nat) :=
  if a ∈ l then .error .duplicateKey else .ok (insertSorted a l)

/-- `add_internal` (tlosrecovery.cpp:51-81): if the account has a
del-bandwidth row it is emplaced into the `"unstake"` table, otherwise into
the `"recover"` table. -/
def add_internal (env : Env) (account_name : Nat) (st : State) :
    Except Err State :=
  match env.stake account_name with
  | some _ =>
    match emplace account_name st.unstaking with
    | .error e => .error e
    | .ok uq => .ok { st with unstaking := uq }
  | none =>
    match emplace account_name st.recovering with
    | .error e => .error e
    | .ok rq => .ok { st with recovering := rq }

/-- `add` (tlosrecovery.cpp:94-101): `require_auth(get_self())`, then
`add_internal` on each listed account in order.  It sends no inline
actions, so the action list of a successful run is `[]` by construction. -/
def add (env : Env) (account_names : List Nat) (st : State) :
    Except Err (State × List Action) :=
  match account_names.foldlM (fun s a => add_internal env a s) st with
  | .error e => .error e
  | .ok st' => .ok (st', [])

/-- `remove_internal` (tlosrecovery.cpp:103-123): erase the account from the
`"unstake"` table if present, then from the `"recover"` table if present;
absence is not an error.  On a duplicate-free table, erasing the found row
is filtering the key out. -/
def remove_internal (account_name : Nat) (st : State) : State :=
  { unstaking := st.unstaking.filter (fun x => x ≠ account_name),
    recovering := st.recovering.filter (fun x => x ≠ account_name) }

/-- `remove` (tlosrecovery.cpp:125-132): `require_auth(get_self())`, then
`remove_internal` on each listed account.  It never aborts on absent
accounts and sends no actions. -/
def remove (account_names : List Nat) (st : State) : State :=
  account_names.foldl (fun s a => remove_internal a s) st

/-- `removeme` (tlosrecovery.cpp:134-139): `require_auth(account_name)`,
then `remove_internal` on that single account. -/
def removeme (account_name : Nat) (st : State) : State :=
  remove_internal account_name st

/-- The loop body of `unstake` (tlosrecovery.cpp:151-171), by fuel =
remaining iterations of `i < n`.  Each iteration reads the front of the
`"unstake"` table, sends `undelegatebw` for the full staked weights when a
del-bandwidth row exists, emplaces the account into the `"recover"` table
(duplicate key aborts the transaction), and erases it from the `"unstake"`
table.  Returns the two tables, the actions sent, and the loop count `i`. -/
def unstake_loop (env : Env) :
    Nat → List Nat → List Nat → Except Err (List Nat × List Nat × List Action × Nat)
  | 0, uq, rq => .ok (uq, rq, [], 0)
  | Nat.succ fuel, uq, rq =>
    match uq with
    | [] => .ok ([], rq, [], 0)
    | a :: rest =>
      match emplace a rq with
      | .error e => .error e
      | .ok rq' =>
        match unstake_loop env fuel rest rq' with
        | .error e => .error e
        | .ok (uq'', rq'', acts', i) =>
          .ok (uq'', rq'',
            (match env.stake a with
              | some s => [Action.undelegate a a s.net s.cpu]
              | none => []) ++ acts', i + 1)

/-- `unstake` (tlosrecovery.cpp:142-174): run the loop for up to `n`
entries, then `check(i > 0, "No accounts to unstake")`. -/
def unstake (env : Env) (n : Nat) (st : State) :
    Except Err (State × List Action) :=
  match unstake_loop env n st.unstaking st.recovering with
  | .error e => .error e
  | .ok (uq, rq, acts, i) =>
    if i > 0 then .ok ({ unstaking := uq, recovering := rq }, acts)
    else .error (.checkFailed "No accounts to unstake")

/-- The loop body of `recover` (tlosrecovery.cpp:189-214), by fuel.  Each
iteration reads the entry at the cursor: if a refund row exists it sends
`eosio::refund` and advances the cursor past the entry without erasing it
(`recovering_iterator++; continue`, which still runs the `i++` of the
`for` loop); otherwise it sends a `transfer` of the full balance to
`get_self()` when the balance is positive, and erases the entry.  Returns
the table from the cursor on, the actions sent, and the loop count `i`. -/
def recover_loop (env : Env) : Nat → List Nat → List Nat × List Action × Nat
  | 0, rq => (rq, [], 0)
  | Nat.succ fuel, rq =>
    match rq with
    | [] => ([], [], 0)
    | a :: rest =>
      if env.refunds a then
        let r := recover_loop env fuel rest
        (a :: r.1, Action.refund a :: r.2.1, r.2.2 + 1)
      else
        let r := recover_loop env fuel rest
        (r.1,
          (if env.balance a > 0 then
            [Action.transfer a env.self (env.balance a)] else []) ++ r.2.1,
          r.2.2 + 1)

/-- `recover` (tlosrecovery.cpp:176-217): run the loop for up to `n`
entries, then `check(i > 0, "No accounts to recover")`. -/
def recover (env : Env) (n : Nat) (st : State) :
    Except Err (State × List Action) :=
  let r := recover_loop env n st.recovering
  if r.2.2 > 0 then .ok ({ st with recovering := r.1 }, r.2.1)
  else .error (.checkFailed "No accounts to recover")

/-- The undelegate actions `unstake` sends for a list of processed
accounts: one `undelegatebw` of the full net and cpu weights, from the
account back to the account itself, for each account with a del-bandwidth
row; none for the others. -/
def undelegate_acts (env : Env) (l : List Nat) : List Action :=
  l.flatMap fun a => match env.stake a with
    | some s => [Action.undelegate a a s.net s.cpu]
    | none => []

/-- Repeated key-ordered insertion, the `"recover"` table `unstake` builds
from the processed prefix. -/
def insertAll (l : List Nat) (rq : List Nat) : List Nat :=
  l.foldl (fun r a => insertSorted a r) rq

/-- The actions the `recover` loop sends for a processed list of entries:
a claim-refund for each entry with a pending refund, a full-balance
transfer to the contract's own account for each clear entry with positive
balance, and nothing for clear entries with no balance. -/
def recover_acts (env : Env) (l : List Nat) : List Action :=
  l.flatMap fun a =>
    if env.refunds a then [Action.refund a]
    else if env.balance a > 0 then
      [Action.transfer a env.self (env.balance a)]
    else []

/-- Recognises a transfer action sent from account `x`. -/
def isTransferFrom (x : Nat) : Action → Bool
  | Action.transfer f _ _ => f == x
  | _ => false

/-! ### Reachable states

Two transition relations over invocations of the five actions.  The
external environment (stake rows, refund rows, balances) may differ at
every step, since the chain evolves between transactions.  A failed
invocation aborts atomically and does not change the state, so only
successful invocations appear as transitions.  `StepClean` admits an
account only when it is in neither queue (the spec's "clean admission, no
duplicate-add"; a list `add` under clean admission is the sequential
composition of such single-account steps, since `add` folds `add_internal`
over the list).  `StepAny` places no condition on `add` beyond success. -/

inductive StepClean : State → State → Prop where
  | addStep (env : Env) (a : Nat) (st st' : State) :
      a ∉ st.unstaking → a ∉ st.recovering →
      add_internal env a st = .ok st' → StepClean st st'
  | removeStep (l : List Nat) (st : State) : StepClean st (remove l st)
  | removemeStep (a : Nat) (st : State) : StepClean st (removeme a st)
  | unstakeStep (env : Env) (n : Nat) (st st' : State) (acts : List Action) :
      unstake env n st = .ok (st', acts) → StepClean st st'
  | recoverStep (env : Env) (n : Nat) (st st' : State) (acts : List Action) :
      recover env n st = .ok (st', acts) → StepClean st st'

/-- States reachable from the empty contract by clean-admission runs. -/
inductive ReachableClean : State → Prop where
  | empty : ReachableClean ⟨[], []⟩
  | step {st st' : State} :
      ReachableClean st → StepClean st st' → ReachableClean st'

inductive StepAny : State → State → Prop where
  | addStep (env : Env) (l : List Nat) (st st' : State) (acts : List Action) :
      add env l st = .ok (st', acts) → StepAny st st'
  | removeStep (l : List Nat) (st : State) : StepAny st (remove l st)
  | removemeStep (a : Nat) (st : State) : StepAny st (removeme a st)
  | unstakeStep (env : Env) (n : Nat) (st st' : State) (acts : List Action) :
      unstake env n st = .ok (st', acts) → StepAny st st'
  | recoverStep (env : Env) (n : Nat) (st st' : State) (acts : List Action) :
      recover env n st = .ok (st', acts) → StepAny st st'

/-- States reachable from the empty contract with no admission condition. -/
inductive ReachableAny : State → Prop where
  | empty : ReachableAny ⟨[], []⟩
  | step {st st' : State} :
      ReachableAny st → StepAny st st' → ReachableAny st'

/-- Well-formedness of the persistent state: each table is strictly
ascending in its primary key (as a `multi_index` is), and no account is in
both tables. -/
def Inv (st : State) : Prop :=
  st.unstaking.Pairwise (· < ·) ∧ st.recovering.Pairwise (· < ·) ∧
    ∀ a ∈ st.unstaking, a ∉ st.recovering

/-! ### Concrete external environments, used to evaluate the operations on
concrete states -/

/-- Every account holds delegated stake of net weight 10 and cpu weight 20;
no pending refunds; zero balances; the contract account is 99. -/
def envStaked : Env := ⟨fun _ => some ⟨10, 20⟩, fun _ => false, fun _ => 0, 99⟩

/-- No account holds stake, has a pending refund, or has a balance. -/
def envPlain : Env := ⟨fun _ => none, fun _ => false, fun _ => 0, 99⟩

/-- Account 7 has a pending refund; no stake; zero balances. -/
def envRefund7 : Env := ⟨fun _ => none, fun a => a == 7, fun _ => 0, 99⟩

/-- Account 7 has a pending refund and account 8 a balance of 50. -/
def envRefund7Bal8 : Env :=
  ⟨fun _ => none, fun a => a == 7, fun b => if b == 8 then 50 else 0, 99⟩

/-- Account 4 has a balance of 50; no stake, no refunds. -/
def envBal4 : Env :=
  ⟨fun _ => none, fun _ => false, fun b => if b == 4 then 50 else 0, 99⟩

/-! ### Basic lemmas about the table operations -/

theorem mem_insertSorted {x a : Nat} :
    ∀ {l : List Nat}, x ∈ insertSorted a l ↔ x = a ∨ x ∈ l
  | [] => by simp [insertSorted]
  | b :: l => by
    simp only [insertSorted]
    split
    · simp [List.mem_cons]
    · simp only [List.mem_cons, mem_insertSorted]
      tauto

theorem insertSorted_perm (a : Nat) :
    ∀ (l : List Nat), (insertSorted a l).Perm (a :: l)
  | [] => by simp [insertSorted]
  | b :: l => by
    simp only [insertSorted]
    split
    · exact List.Perm.refl _
    · exact ((insertSorted_perm a l).cons b).trans (List.Perm.swap a b l)

theorem pairwise_insertSorted {a : Nat} :
    ∀ {l : List Nat}, l.Pairwise (· < ·) → a ∉ l →
      (insertSorted a l).Pairwise (· < ·)
  | [], _, _ => by simp [insertSorted]
  | b :: l, hp, hm => by
    rcases List.pairwise_cons.1 hp with ⟨hb, hl⟩
    simp only [insertSorted]
    by_cases hab : a < b
    · simp only [if_pos hab]
      refine List.pairwise_cons.2 ⟨?_, hp⟩
      intro x hx
      rcases List.mem_cons.1 hx with rfl | hx
      · exact hab
      · exact hab.trans (hb x hx)
    · simp only [if_neg hab]
      have hne : a ≠ b := by
        intro h
        rw [h] at hm
        exact hm (List.mem_cons_self b l)
      have hba : b < a :=
        lt_of_le_of_ne (Nat.le_of_not_lt hab) (Ne.symm hne)
      refine List.pairwise_cons.2
        ⟨?_, pairwise_insertSorted hl (fun h => hm (List.mem_cons_of_mem b h))⟩
      intro x hx
      rcases mem_insertSorted.1 hx with rfl | hx
      · exact hba
      · exact hb x hx

theorem insertAll_cons (a : Nat) (l rq : List Nat) :
    insertAll (a :: l) rq = insertAll l (insertSorted a rq) := rfl

theorem insertAll_perm : ∀ (l rq : List Nat), (insertAll l rq).Perm (l ++ rq)
  | [], rq => by simp [insertAll]
  | a :: l, rq => by
    rw [insertAll_cons]
    refine (insertAll_perm l (insertSorted a rq)).trans ?_
    refine (List.Perm.append_left l (insertSorted_perm a rq)).trans ?_
    exact List.perm_middle

theorem mem_insertAll {x : Nat} {l rq : List Nat} :
    x ∈ insertAll l rq ↔ x ∈ l ∨ x ∈ rq := by
  rw [(insertAll_perm l rq).mem_iff]
  simp

theorem pairwise_insertAll :
    ∀ (l rq : List Nat), rq.Pairwise (· < ·) → l.Nodup →
      (∀ x ∈ l, x ∉ rq) → (insertAll l rq).Pairwise (· < ·)
  | [], _, hrq, _, _ => hrq
  | a :: l, rq, hrq, hnd, hdisj => by
    rw [insertAll_cons]
    rcases List.nodup_cons.1 hnd with ⟨ha, hl⟩
    refine pairwise_insertAll l _
      (pairwise_insertSorted hrq (hdisj a (List.mem_cons_self a l))) hl ?_
    intro x hx hmem
    rcases mem_insertSorted.1 hmem with rfl | hmem
    · exact ha hx
    · exact hdisj x (List.mem_cons_of_mem a hx) hmem

/-- When the processed prefix of the `"unstake"` table is duplicate-free
and disjoint from the `"recover"` table, the `unstake` loop runs
`min fuel (length uq)` iterations and computes drop/insert results with no
duplicate-key abort. -/
theorem unstake_loop_eq (env : Env) :
    ∀ (fuel : Nat) (uq rq : List Nat), uq.Nodup → (∀ x ∈ uq, x ∉ rq) →
      unstake_loop env fuel uq rq =
        .ok (uq.drop fuel, insertAll (uq.take fuel) rq,
             undelegate_acts env (uq.take fuel), min fuel uq.length)
  | 0, uq, rq, _, _ => by simp [unstake_loop, insertAll, undelegate_acts]
  | Nat.succ fuel, [], rq, _, _ => by
    simp [unstake_loop, insertAll, undelegate_acts]
  | Nat.succ fuel, a :: rest, rq, hnd, hdisj => by
    rcases List.nodup_cons.1 hnd with ⟨ha, hrest⟩
    have hmem : a ∉ rq := hdisj a (List.mem_cons_self a rest)
    have hdisj' : ∀ x ∈ rest, x ∉ insertSorted a rq := by
      intro x hx hmem'
      rcases mem_insertSorted.1 hmem' with rfl | hmem'
      · exact ha hx
      · exact hdisj x (List.mem_cons_of_mem a hx) hmem'
    simp only [unstake_loop, emplace, if_neg hmem]
    rw [unstake_loop_eq env fuel rest (insertSorted a rq) hrest hdisj']
    simp [undelegate_acts, insertAll_cons, Nat.succ_min_succ]

/-- The table the `recover` loop leaves behind is a sublist of the table it
started from: entries are only kept in place or erased, never inserted. -/
theorem recover_loop_sublist (env : Env) :
    ∀ (fuel : Nat) (rq : List Nat), (recover_loop env fuel rq).1.Sublist rq
  | 0, rq => List.Sublist.refl rq
  | Nat.succ _, [] => by simp [recover_loop]
  | Nat.succ fuel, a :: rest => by
    simp only [recover_loop]
    by_cases h : env.refunds a
    · simp only [if_pos h]
      exact (recover_loop_sublist env fuel rest).cons₂ a
    · simp only [if_neg h]
      exact (recover_loop_sublist env fuel rest).cons a

/-- Closed form of the `recover` loop: the processed prefix is the first
`fuel` entries, of which exactly those with pending refunds remain, the
actions are `recover_acts` of that prefix, and the loop count is the
prefix's length. -/
theorem recover_loop_eq (env : Env) :
    ∀ (fuel : Nat) (rq : List Nat),
      recover_loop env fuel rq =
        ((rq.take fuel).filter (fun a => env.refunds a) ++ rq.drop fuel,
         recover_acts env (rq.take fuel), min fuel rq.length)
  | 0, rq => by simp [recover_loop, recover_acts]
  | Nat.succ fuel, [] => by simp [recover_loop, recover_acts]
  | Nat.succ fuel, a :: rest => by
    simp only [recover_loop]
    rw [recover_loop_eq env fuel rest]
    by_cases h : env.refunds a = true
    · simp [h, recover_acts, Nat.succ_min_succ]
    · simp [h, recover_acts, Nat.succ_min_succ]

/-- An account outside the processed list has no transfer sent from it. -/
theorem countP_recover_acts_not_mem (env : Env) {x : Nat} :
    ∀ {l : List Nat}, x ∉ l →
      (recover_acts env l).countP (isTransferFrom x) = 0
  | [], _ => rfl
  | a :: l, h => by
    have hxa : x ≠ a := fun hh => h (List.mem_cons.2 (Or.inl hh))
    have hxl : x ∉ l := fun hh => h (List.mem_cons.2 (Or.inr hh))
    have hsplit : recover_acts env (a :: l) =
        (if env.refunds a then [Action.refund a]
         else if env.balance a > 0 then
           [Action.transfer a env.self (env.balance a)]
         else []) ++ recover_acts env l := rfl
    rw [hsplit, List.countP_append, countP_recover_acts_not_mem env hxl]
    by_cases hr : env.refunds a = true
    · simp [hr, List.countP_cons, isTransferFrom]
    · by_cases hb : env.balance a > 0
      · simp [hr, hb, List.countP_cons, isTransferFrom, Ne.symm hxa]
      · simp [hr, hb]

/-- A clear (no pending refund) account in a duplicate-free processed list
gets exactly one transfer sent from it when its balance is positive, and
none when it is not. -/
theorem countP_recover_acts_mem (env : Env) {x : Nat}
    (hx : env.refunds x = false) :
    ∀ {l : List Nat}, l.Nodup → x ∈ l →
      (recover_acts env l).countP (isTransferFrom x) =
        if env.balance x > 0 then 1 else 0
  | [], _, hmem => absurd hmem (List.not_mem_nil x)
  | a :: l, hnd, hmem => by
    rcases List.nodup_cons.1 hnd with ⟨hal, hl⟩
    have hsplit : recover_acts env (a :: l) =
        (if env.refunds a then [Action.refund a]
         else if env.balance a > 0 then
           [Action.transfer a env.self (env.balance a)]
         else []) ++ recover_acts env l := rfl
    rw [hsplit, List.countP_append]
    rcases List.mem_cons.1 hmem with rfl | hmem
    · rw [countP_recover_acts_not_mem env hal]
      by_cases hb : env.balance x > 0
      · simp [hx, hb, List.countP_cons, isTransferFrom]
      · simp [hx, hb]
    · have hxa : x ≠ a := fun hh => hal (hh ▸ hmem)
      rw [countP_recover_acts_mem env hx hl hmem]
      by_cases hr : env.refunds a = true
      · simp [hr, List.countP_cons, isTransferFrom]
      · by_cases hb : env.balance a > 0
        · simp [hr, hb, List.countP_cons, isTransferFrom, Ne.symm hxa]
        · simp [hr, hb]

theorem nodup_of_pairwise {l : List Nat} (h : l.Pairwise (· < ·)) :
    l.Nodup :=
  h.imp Nat.ne_of_lt

theorem inv_remove_internal {st : State} (h : Inv st) (a : Nat) :
    Inv (remove_internal a st) := by
  obtain ⟨hu, hr, hd⟩ := h
  refine ⟨List.Pairwise.sublist (List.filter_sublist _) hu,
          List.Pairwise.sublist (List.filter_sublist _) hr, ?_⟩
  intro x hx hmem
  exact hd x (List.mem_of_mem_filter hx) (List.mem_of_mem_filter hmem)

theorem inv_remove : ∀ (l : List Nat) {st : State}, Inv st → Inv (remove l st)
  | [], _, h => h
  | a :: l, st, h => by
    have : remove (a :: l) st = remove l (remove_internal a st) := rfl
    rw [this]
    exact inv_remove l (inv_remove_internal h a)

theorem inv_add_internal {env : Env} {a : Nat} {st st' : State}
    (hInv : Inv st) (hu : a ∉ st.unstaking) (hr : a ∉ st.recovering)
    (h : add_internal env a st = .ok st') : Inv st' := by
  obtain ⟨hpu, hpr, hd⟩ := hInv
  unfold add_internal at h
  cases hstake : env.stake a with
  | some s =>
    rw [hstake] at h
    simp only [emplace, if_neg hu] at h
    cases h
    refine ⟨pairwise_insertSorted hpu hu, hpr, ?_⟩
    intro x hx
    rcases mem_insertSorted.1 hx with rfl | hx
    · exact hr
    · exact hd x hx
  | none =>
    rw [hstake] at h
    simp only [emplace, if_neg hr] at h
    cases h
    refine ⟨hpu, pairwise_insertSorted hpr hr, ?_⟩
    intro x hx hmem
    rcases mem_insertSorted.1 hmem with rfl | hmem
    · exact hu hx
    · exact hd x hx hmem

/-- Closed form of `unstake` on a duplicate-free `"unstake"` table disjoint
from the `"recover"` table: success exactly when the loop made progress,
with drop/take/insert results and the undelegate actions of the processed
prefix. -/
theorem unstake_eq (env : Env) (n : Nat) (st : State)
    (hnd : st.unstaking.Nodup)
    (hd : ∀ x ∈ st.unstaking, x ∉ st.recovering) :
    unstake env n st =
      if min n st.unstaking.length > 0 then
        .ok (⟨st.unstaking.drop n, insertAll (st.unstaking.take n) st.recovering⟩,
             undelegate_acts env (st.unstaking.take n))
      else .error (.checkFailed "No accounts to unstake") := by
  rw [unstake, unstake_loop_eq env n _ _ hnd hd]

theorem inv_unstake {env : Env} {n : Nat} {st st' : State}
    {acts : List Action} (hInv : Inv st)
    (h : unstake env n st = .ok (st', acts)) : Inv st' := by
  obtain ⟨hpu, hpr, hd⟩ := hInv
  have hnd : st.unstaking.Nodup := nodup_of_pairwise hpu
  rw [unstake_eq env n st hnd hd] at h
  by_cases hi : min n st.unstaking.length > 0
  · rw [if_pos hi] at h
    cases h
    have htake : ∀ x ∈ st.unstaking.take n, x ∉ st.recovering := by
      intro x hx
      exact hd x (List.take_subset n _ hx)
    refine ⟨List.Pairwise.sublist (List.drop_sublist n _) hpu,
            pairwise_insertAll _ _ hpr
              (List.Nodup.sublist (List.take_sublist n _) hnd) htake, ?_⟩
    intro x hx hmem
    rcases mem_insertAll.1 hmem with hmem | hmem
    · exact List.disjoint_take_drop hnd (le_refl n) hmem hx
    · exact hd x (List.drop_subset n _ hx) hmem
  · rw [if_neg hi] at h
    cases h

theorem inv_recover {env : Env} {n : Nat} {st st' : State}
    {acts : List Action} (hInv : Inv st)
    (h : recover env n st = .ok (st', acts)) : Inv st' := by
  obtain ⟨hpu, hpr, hd⟩ := hInv
  unfold recover at h
  by_cases hi : (recover_loop env n st.recovering).2.2 > 0
  · rw [if_pos hi] at h
    cases h
    have hsub := recover_loop_sublist env n st.recovering
    refine ⟨hpu, List.Pairwise.sublist hsub hpr, ?_⟩
    intro x hx hmem
    exact hd x hx (hsub.subset hmem)
  · rw [if_neg hi] at h
    cases h

theorem inv_stepClean {st st' : State} (hInv : Inv st)
    (h : StepClean st st') : Inv st' := by
  cases h with
  | addStep env a st st' hu hr hok => exact inv_add_internal hInv hu hr hok
  | removeStep l st => exact inv_remove l hInv
  | removemeStep a st => exact inv_remove_internal hInv a
  | unstakeStep env n st st' acts hok => exact inv_unstake hInv hok
  | recoverStep env n st st' acts hok => exact inv_recover hInv hok

/-- Every clean-admission reachable state is well-formed: sorted tables,
mutually exclusive membership. -/
theorem reachableClean_inv : ∀ {st : State}, ReachableClean st → Inv st := by
  intro st h
  induction h with
  | empty => exact ⟨List.Pairwise.nil, List.Pairwise.nil, by simp⟩
  | step _ hstep ih => exact inv_stepClean ih hstep

/-- `remove` keeps exactly the table entries whose key is not in the
removed list: the fold of per-account erasures is a single filter. -/
theorem remove_eq_filter :
    ∀ (l : List Nat) (st : State),
      remove l st =
        { unstaking := st.unstaking.filter (fun x => decide (x ∉ l)),
          recovering := st.recovering.filter (fun x => decide (x ∉ l)) }
  | [], st => by simp [remove]
  | a :: l, st => by
    have h1 : remove (a :: l) st = remove l (remove_internal a st) := rfl
    rw [h1, remove_eq_filter l (remove_internal a st)]
    simp only [remove_internal, List.filter_filter]
    have hpred : ∀ (q : List Nat),
        (q.filter fun x => decide (x ∉ l) && decide (x ≠ a)) =
          q.filter fun x => decide (x ∉ a :: l) := by
      intro q
      refine List.filter_congr ?_
      intro x _
      simp only [List.mem_cons, not_or, Bool.and_comm]
      simp [Decidable.not_not]
    rw [hpred, hpred]

/-! ### The claims -/

/-- Claim C9: `remove` is idempotent — applied twice to the same account
list it yields the state of a single application; removing an account
absent from both queues is a no-op and (by the totality of `remove`, which
returns a state and never an abort) not an error; and `removeme` performs
exactly the removal of its single calling account. -/
theorem remove_idempotent :
    (∀ (l : List Nat) (st : State), remove l (remove l st) = remove l st) ∧
    (∀ (a : Nat) (st : State), a ∉ st.unstaking → a ∉ st.recovering →
      remove [a] st = st) ∧
    (∀ (a : Nat) (st : State), removeme a st = remove [a] st) := by
  refine ⟨?_, ?_, ?_⟩
  · intro l st
    rw [remove_eq_filter, remove_eq_filter]
    simp [List.filter_filter]
  · intro a st hu hr
    have h1 : remove [a] st = remove_internal a st := rfl
    rw [h1]
    unfold remove_internal
    rw [List.filter_eq_self.2, List.filter_eq_self.2]
    · intro x hx
      simp only [decide_eq_true_iff]
      intro hxa
      rw [hxa] at hx
      exact hr hx
    · intro x hx
      simp only [decide_eq_true_iff]
      intro hxa
      rw [hxa] at hx
      exact hu hx
  · intro a st
    rfl

/-- Claim C9 witness: removing the absent account 3 from the concrete
state with tables `[5]` and `[7]` is a no-op, and double removal equals
single removal there. -/
theorem remove_idempotent_witness :
    remove [3] ⟨[5], [7]⟩ = (⟨[5], [7]⟩ : State) ∧
    remove [5] (remove [5] ⟨[5], [7]⟩) = remove [5] ⟨[5], [7]⟩ := by
  constructor
  · exact remove_idempotent.2.1 3 ⟨[5], [7]⟩ (by simp) (by simp)
  · exact remove_idempotent.1 [5] ⟨[5], [7]⟩

/-- Claim C10: with batch count 0 both batch operations always abort with
their zero-progress check error — even on non-empty queues — and, the
abort being atomic, change neither the queues nor the external ledger; so
a zero-progress failure does not show the queue was empty. -/
theorem batch_zero_always_fails :
    ∀ (env : Env) (st : State),
      unstake env 0 st = .error (.checkFailed "No accounts to unstake") ∧
      recover env 0 st = .error (.checkFailed "No accounts to recover") := by
  intro env st
  exact ⟨rfl, rfl⟩

/-- Claim C4 counterexample: RecoveryQueue `[7]` where 7 has a pending
refund — `recover 1` issues the claim-refund action and keeps 7 in the
queue, but it *succeeds* rather than failing with the zero-progress
error, because the `for`-loop counter is incremented by the skip. -/
theorem recover_pending_skip_counterexample :
    recover envRefund7 1 ⟨[], [7]⟩ = .ok (⟨[], [7]⟩, [Action.refund 7]) := by
  rfl

/-- Claim C4 (amended): for a RecoveryQueue `[b]` whose only entry has a
pending refund, `recover 1` issues the claim-refund action for `b`, does
not remove `b`, and *succeeds*: the refund-pending skip increments the
loop counter, so it counts as progress toward the nonzero-progress
check. -/
theorem recover_single_pending_succeeds (env : Env) (uq : List Nat)
    (b : Nat) (h : env.refunds b = true) :
    recover env 1 ⟨uq, [b]⟩ = .ok (⟨uq, [b]⟩, [Action.refund b]) := by
  simp [recover, recover_loop, h]

/-- Claim C4 witness: the amended statement evaluated on RecoveryQueue
`[7]` with a pending refund for 7. -/
theorem recover_single_pending_succeeds_witness :
    recover envRefund7 1 ⟨[9], [7]⟩ = .ok (⟨[9], [7]⟩, [Action.refund 7]) :=
  recover_single_pending_succeeds envRefund7 [9] 7 rfl

/-- Claim C5: every RecoveryQueue entry processed by `recover n` without a
pending refund is terminal.  On a successful run from a duplicate-free
RecoveryQueue: the queue keeps exactly the pending-refund entries of the
processed prefix plus the untouched tail, the actions are `recover_acts`
of the prefix, and every clear processed entry `x` is removed from the
queue and has exactly one transfer sent from it — the full balance to the
contract's own custodial identity — when its balance is positive, and no
transfer at all otherwise. -/
theorem recover_entry_terminal (env : Env) (n : Nat) (st st' : State)
    (acts : List Action) (hnd : st.recovering.Nodup)
    (hok : recover env n st = .ok (st', acts)) :
    st'.unstaking = st.unstaking ∧
    st'.recovering =
      (st.recovering.take n).filter (fun a => env.refunds a) ++
        st.recovering.drop n ∧
    acts = recover_acts env (st.recovering.take n) ∧
    ∀ x ∈ st.recovering.take n, env.refunds x = false →
      x ∉ st'.recovering ∧
      acts.countP (isTransferFrom x) =
        (if env.balance x > 0 then 1 else 0) ∧
      (env.balance x > 0 →
        Action.transfer x env.self (env.balance x) ∈ acts) := by
  unfold recover at hok
  rw [recover_loop_eq env n st.recovering] at hok
  by_cases hi : min n st.recovering.length > 0
  · rw [if_pos hi] at hok
    cases hok
    refine ⟨rfl, rfl, rfl, ?_⟩
    intro x hxt hxr
    refine ⟨?_, ?_, ?_⟩
    · intro hmem
      rcases List.mem_append.1 hmem with hmem | hmem
      · rw [List.mem_filter, hxr] at hmem
        exact Bool.false_ne_true hmem.2
      · exact List.disjoint_take_drop hnd (le_refl n) hxt hmem
    · exact countP_recover_acts_mem env hxr
        (List.Nodup.sublist (List.take_sublist n _) hnd) hxt
    · intro hb
      refine List.mem_flatMap.2 ⟨x, hxt, ?_⟩
      simp [hxr, hb]
  · rw [if_neg hi] at hok
    cases hok

/-- Claim C5 witness: account 4, no pending refund, balance 50 — it is
removed from the queue and exactly one transfer of the full 50 to the
custodial identity 99 is sent. -/
theorem recover_entry_terminal_witness :
    (4 : Nat) ∉ (⟨[], []⟩ : State).recovering ∧
    ([Action.transfer 4 99 50].countP (isTransferFrom 4) =
      if envBal4.balance 4 > 0 then 1 else 0) ∧
    (envBal4.balance 4 > 0 →
      Action.transfer 4 envBal4.self (envBal4.balance 4) ∈
        [Action.transfer 4 99 50]) := by
  have h := recover_entry_terminal envBal4 1 ⟨[], [4]⟩ ⟨[], []⟩
    [Action.transfer 4 99 50] (by simp) rfl
  exact h.2.2.2 4 (by simp) rfl

/-- Claim C3: non-starvation of `recover`.  With front entry `a` under a
pending refund and second entry `b` not pending, `recover n` with `n ≥ 2`
issues the claim-refund action for `a`, leaves `a` at the front of the
queue, and in the same invocation processes `b` to termination — `b`'s
transfer (if its balance is positive) is issued and `b` is removed — while
the skipped front entry consumes one of the `n` batch slots, the rest of
the queue receiving only the remaining `n - 2` slots. -/
theorem recover_nonstarvation (env : Env) (n : Nat) (uq : List Nat)
    (a b : Nat) (rest : List Nat) (hn : 2 ≤ n)
    (ha : env.refunds a = true) (hb : env.refunds b = false)
    (hba : b ≠ a) (hbr : b ∉ rest) :
    recover env n ⟨uq, a :: b :: rest⟩ =
      .ok (⟨uq, a :: (recover_loop env (n - 2) rest).1⟩,
        Action.refund a ::
          ((if env.balance b > 0 then
            [Action.transfer b env.self (env.balance b)] else []) ++
            (recover_loop env (n - 2) rest).2.1)) ∧
    b ∉ a :: (recover_loop env (n - 2) rest).1 := by
  obtain ⟨m, rfl⟩ : ∃ m, n = m + 2 := ⟨n - 2, by omega⟩
  constructor
  · simp [recover, recover_loop, ha, hb]
  · intro hmem
    rcases List.mem_cons.1 hmem with h | hmem
    · exact hba h
    · exact hbr ((recover_loop_sublist env m rest).subset hmem)

/-- Claim C3 witness: RecoveryQueue `[7, 8]`, 7 pending, 8 clear with
balance 50 — `recover 2` refunds 7, keeps it, and transfers 8's full
balance, removing 8. -/
theorem recover_nonstarvation_witness :
    recover envRefund7Bal8 2 ⟨[], [7, 8]⟩ =
      .ok (⟨[], 7 :: (recover_loop envRefund7Bal8 0 []).1⟩,
        Action.refund 7 ::
          ((if envRefund7Bal8.balance 8 > 0 then
            [Action.transfer 8 envRefund7Bal8.self (envRefund7Bal8.balance 8)]
           else []) ++ (recover_loop envRefund7Bal8 0 []).2.1)) ∧
    8 ∉ 7 :: (recover_loop envRefund7Bal8 0 []).1 :=
  recover_nonstarvation envRefund7Bal8 2 [] 7 8 [] (le_refl 2) rfl rfl
    (by decide) (by simp)

/-- Claim C6: admission routing.  Each account in the list handed to `add`
is routed independently, in list order, by the external stake-delegation
state at its own admission: with a del-bandwidth row it goes into
UnstakeQueue, otherwise directly into RecoveryQueue — and a successful
`add` issues no external actions at all, only queue mutation. -/
theorem add_routing (env : Env) (a : Nat) (l : List Nat) (st : State)
    (hu : a ∉ st.unstaking) (hr : a ∉ st.recovering) :
    add env (a :: l) st =
      (if (env.stake a).isSome then
        add env l { st with unstaking := insertSorted a st.unstaking }
       else add env l { st with recovering := insertSorted a st.recovering }) ∧
    (∀ (l' : List Nat) (st₀ st' : State) (acts : List Action),
      add env l' st₀ = .ok (st', acts) → acts = []) := by
  constructor
  · cases hstake : env.stake a with
    | some s =>
      have hfa : add_internal env a st =
          Except.ok { st with unstaking := insertSorted a st.unstaking } := by
        simp [add_internal, hstake, emplace, if_neg hu]
      simp only [Option.isSome_some, if_true]
      unfold add
      rw [List.foldlM_cons, hfa]
      rfl
    | none =>
      have hfa : add_internal env a st =
          Except.ok { st with recovering := insertSorted a st.recovering } := by
        simp [add_internal, hstake, emplace, if_neg hr]
      simp only [Option.isSome_none, Bool.false_eq_true, if_false]
      unfold add
      rw [List.foldlM_cons, hfa]
      rfl
  · intro l' st₀ st' acts h
    unfold add at h
    cases hfold : l'.foldlM (fun s a => add_internal env a s) st₀ with
    | error e => rw [hfold] at h; cases h
    | ok s => rw [hfold] at h; cases h; rfl

/-- Claim C6 witness: under an environment where every account is staked,
admitting 5 into the empty state routes it into UnstakeQueue, with no
actions issued. -/
theorem add_routing_witness :
    (add envStaked [5] ⟨[], []⟩ =
      (if (envStaked.stake 5).isSome then
        add envStaked [] ⟨insertSorted 5 [], []⟩
       else add envStaked [] ⟨[], insertSorted 5 []⟩)) ∧
    (∀ (l' : List Nat) (st₀ st' : State) (acts : List Action),
      add envStaked l' st₀ = .ok (st', acts) → acts = []) :=
  add_routing envStaked 5 [] ⟨[], []⟩ (by simp) (by simp)

/-- Claim C1 counterexample: with UnstakeQueue `[5]` (so k = 1 ≥ n = 1)
but account 5 also present in RecoveryQueue, `unstake 1` does not succeed:
the emplace into the `"recover"` table hits a duplicate key and the whole
invocation aborts.  The claim's guarantee therefore needs the processed
entries to be absent from RecoveryQueue. -/
theorem unstake_monotonic_counterexample :
    (⟨[5], [5]⟩ : State).unstaking.length = 1 ∧
    unstake envStaked 1 ⟨[5], [5]⟩ = .error Err.duplicateKey := by
  exact ⟨rfl, rfl⟩

/-- Claim C1 (amended): monotonic progress of `unstake` on an UnstakeQueue
that is duplicate-free and disjoint from RecoveryQueue (as clean admission
guarantees).  With k = length of UnstakeQueue: if k ≥ n ≥ 1, `unstake n`
succeeds, removes exactly the first n entries and inserts exactly those n
accounts into RecoveryQueue; if 0 < k < n it processes exactly the k
entries and succeeds; if k = 0 it aborts with the empty-queue check error,
changing nothing.  The actions sent are exactly one undelegate of the full
net and cpu weights back to the account itself per processed entry holding
stake, and none for entries without stake (`undelegate_acts`). -/
theorem unstake_monotonic_progress (env : Env) (n : Nat) (uq rq : List Nat)
    (hnd : uq.Nodup) (hdisj : ∀ x ∈ uq, x ∉ rq) :
    (1 ≤ n → n ≤ uq.length →
      unstake env n ⟨uq, rq⟩ =
        .ok (⟨uq.drop n, insertAll (uq.take n) rq⟩,
             undelegate_acts env (uq.take n)) ∧
      (uq.drop n).length = uq.length - n ∧ (uq.take n).length = n ∧
      (insertAll (uq.take n) rq).Perm (uq.take n ++ rq)) ∧
    (0 < uq.length → uq.length < n →
      unstake env n ⟨uq, rq⟩ =
        .ok (⟨[], insertAll uq rq⟩, undelegate_acts env uq) ∧
      (insertAll uq rq).Perm (uq ++ rq)) ∧
    (uq.length = 0 →
      unstake env n ⟨uq, rq⟩ = .error (.checkFailed "No accounts to unstake")) := by
  have heq := unstake_eq env n ⟨uq, rq⟩ hnd hdisj
  refine ⟨?_, ?_, ?_⟩
  · intro h1 hk
    have hmin : min n uq.length = n := Nat.min_eq_left hk
    have h0 : n > 0 := h1
    rw [heq, hmin, if_pos h0]
    refine ⟨rfl, List.length_drop n uq, ?_, insertAll_perm _ _⟩
    rw [List.length_take]
    exact Nat.min_eq_left hk
  · intro hk0 hkn
    have hmin : min n uq.length = uq.length := Nat.min_eq_right (le_of_lt hkn)
    have hdrop : uq.drop n = [] := List.drop_eq_nil_of_le (le_of_lt hkn)
    have htake : uq.take n = uq := List.take_of_length_le (le_of_lt hkn)
    have h0 : uq.length > 0 := hk0
    rw [heq, hmin, if_pos h0, hdrop, htake]
    exact ⟨rfl, insertAll_perm _ _⟩
  · intro hk
    rw [heq, hk]
    simp

/-- Claim C1 witness: UnstakeQueue `[1, 2]` (both staked), empty
RecoveryQueue, batch 1 — exactly account 1 is moved, with one undelegate
of its full weights. -/
theorem unstake_monotonic_progress_witness :
    unstake envStaked 1 ⟨[1, 2], []⟩ =
      .ok (⟨[2], [1]⟩, [Action.undelegate 1 1 10 20]) := by
  have h := (unstake_monotonic_progress envStaked 1 [1, 2] []
    (by decide) (by simp)).1 (le_refl 1) (by simp)
  exact h.1

/-- Claim C2: mutual exclusion of queue membership.  In every state
reachable from the empty queues by `add`, `remove`, `removeme`, `unstake`
and `recover` invocations under clean admission (no account admitted while
already present in a queue), no account is in both UnstakeQueue and
RecoveryQueue. -/
theorem queues_mutually_exclusive {st : State} (h : ReachableClean st) :
    ∀ a ∈ st.unstaking, a ∉ st.recovering :=
  (reachableClean_inv h).2.2

/-- Claim C2 witness: the state with UnstakeQueue `[5]` reached by one
clean admission of a staked account; 5 is not in RecoveryQueue. -/
theorem queues_mutually_exclusive_witness :
    (5 : Nat) ∉ (⟨[5], []⟩ : State).recovering := by
  have hreach : ReachableClean ⟨[5], []⟩ :=
    ReachableClean.step ReachableClean.empty
      (StepClean.addStep envStaked 5 ⟨[], []⟩ ⟨[5], []⟩
        (by simp) (by simp) rfl)
  exact queues_mutually_exclusive hreach 5 (by simp)

/-- Claim C7 counterexample: admission order is not processing order.
Account 5 is admitted first, account 3 second (both staked), yet
`unstake 1` processes the later-admitted 3 — the tables iterate in
primary-key order, so the smaller identifier comes first. -/
theorem admission_order_counterexample :
    add envStaked [5] ⟨[], []⟩ = .ok (⟨[5], []⟩, []) ∧
    add envStaked [3] ⟨[5], []⟩ = .ok (⟨[3, 5], []⟩, []) ∧
    unstake envStaked 1 ⟨[3, 5], []⟩ =
      .ok (⟨[5], [3]⟩, [Action.undelegate 3 3 10 20]) := by
  exact ⟨rfl, rfl, rfl⟩

/-- Claim C7 (amended): batch processing is front-to-back where
front-to-back order is ascending account-identifier (primary-key) order,
for both queues in every clean-admission reachable state — not admission
order; the two coincide only when accounts happen to be admitted in
ascending identifier order.  In particular the front entry processed first
by `unstake` is the least identifier in UnstakeQueue. -/
theorem queue_order_identifier {st : State} (h : ReachableClean st) :
    st.unstaking.Pairwise (· < ·) ∧ st.recovering.Pairwise (· < ·) ∧
    ∀ (env : Env) (a : Nat) (rest : List Nat), st.unstaking = a :: rest →
      (∀ b ∈ rest, a < b) ∧
      unstake env 1 st =
        .ok (⟨rest, insertSorted a st.recovering⟩, undelegate_acts env [a]) := by
  obtain ⟨hpu, hpr, hd⟩ := reachableClean_inv h
  refine ⟨hpu, hpr, ?_⟩
  intro env a rest heq
  constructor
  · intro b hb
    exact (List.pairwise_cons.1 (heq ▸ hpu)).1 b hb
  · rw [unstake_eq env 1 st (nodup_of_pairwise hpu) hd, heq]
    simp [insertAll]

/-- Claim C7 witness: the clean-admission reachable state with UnstakeQueue
`[3, 5]`; the front entry 3 is below 5, and `unstake 1` processes 3. -/
theorem queue_order_identifier_witness :
    unstake envStaked 1 ⟨[3, 5], []⟩ =
      .ok (⟨[5], insertSorted 3 []⟩, undelegate_acts envStaked [3]) := by
  have hreach : ReachableClean ⟨[3, 5], []⟩ :=
    ReachableClean.step
      (ReachableClean.step ReachableClean.empty
        (StepClean.addStep envStaked 5 ⟨[], []⟩ ⟨[5], []⟩
          (by simp) (by simp) rfl))
      (StepClean.addStep envStaked 3 ⟨[5], []⟩ ⟨[3, 5], []⟩
        (by simp) (by simp) rfl)
  exact ((queue_order_identifier hreach).2.2 envStaked 3 [5] rfl).2

/-- Claim C8 counterexample: the duplicate-insert failure inside `unstake`
is reachable.  Admitting account 5 while staked puts it in UnstakeQueue; it
unstakes on its own externally; the operator admits it again, which puts it
in RecoveryQueue as well.  From that reachable state, `unstake 1` on the
non-empty UnstakeQueue aborts with the duplicate-key error instead of
succeeding, leaving the entry stuck at the head. -/
theorem unstake_stuck_counterexample :
    ReachableAny ⟨[5], [5]⟩ ∧ (⟨[5], [5]⟩ : State).unstaking ≠ [] ∧
    unstake envStaked 1 ⟨[5], [5]⟩ = .error Err.duplicateKey := by
  refine ⟨?_, by simp, rfl⟩
  exact ReachableAny.step
    (ReachableAny.step ReachableAny.empty
      (StepAny.addStep envStaked [5] ⟨[], []⟩ ⟨[5], []⟩ [] rfl))
    (StepAny.addStep envPlain [5] ⟨[5], []⟩ ⟨[5], [5]⟩ [] rfl)

/-- Claim C8 (amended): under clean admission the claim holds — in every
clean-admission reachable state with a non-empty UnstakeQueue, `unstake n`
with n ≥ 1 succeeds and strictly shrinks UnstakeQueue (at least the front
entry advances), and the duplicate-insert abort inside `unstake` is
unreachable for every environment and batch count.  Without the
clean-admission restriction the abort is reachable
(see the counterexample). -/
theorem unstake_no_deadlock_clean {st : State} (h : ReachableClean st)
    (env : Env) (n : Nat) (hne : st.unstaking ≠ []) (hn : 1 ≤ n) :
    (∃ st' acts, unstake env n st = .ok (st', acts) ∧
      st'.unstaking.length < st.unstaking.length) ∧
    ∀ (env' : Env) (m : Nat), unstake env' m st ≠ .error Err.duplicateKey := by
  obtain ⟨hpu, hpr, hd⟩ := reachableClean_inv h
  have hnd := nodup_of_pairwise hpu
  have hlen : 0 < st.unstaking.length := List.length_pos.2 hne
  constructor
  · refine ⟨⟨st.unstaking.drop n, insertAll (st.unstaking.take n) st.recovering⟩,
      undelegate_acts env (st.unstaking.take n), ?_, ?_⟩
    · have h0 : min n st.unstaking.length > 0 := lt_min hn hlen
      rw [unstake_eq env n st hnd hd, if_pos h0]
    · rw [List.length_drop]
      exact Nat.sub_lt hlen hn
  · intro env' m heq
    rw [unstake_eq env' m st hnd hd] at heq
    by_cases hmin : min m st.unstaking.length > 0
    · rw [if_pos hmin] at heq
      cases heq
    · rw [if_neg hmin] at heq
      cases heq

/-- Claim C8 witness: the clean-admission reachable state with UnstakeQueue
`[5]` — `unstake 1` succeeds and shrinks the queue, and no duplicate-key
abort is possible there. -/
theorem unstake_no_deadlock_clean_witness :
    (∃ st' acts, unstake envStaked 1 ⟨[5], []⟩ = .ok (st', acts) ∧
      st'.unstaking.length < (⟨[5], []⟩ : State).unstaking.length) ∧
    ∀ (env' : Env) (m : Nat),
      unstake env' m ⟨[5], []⟩ ≠ .error Err.duplicateKey := by
  have hreach : ReachableClean ⟨[5], []⟩ :=
    ReachableClean.step ReachableClean.empty
      (StepClean.addStep envStaked 5 ⟨[], []⟩ ⟨[5], []⟩
        (by simp) (by simp) rfl)
  exact unstake_no_deadlock_clean hreach envStaked 1 (by simp) (le_refl 1)

end tlosrecovery
